import Mathlib

/-!
Verification of the translation pipeline in `scripts/translate_book.py`.

Python strings are modelled as `List Char`; the opaque translation
capability (`GoogleTranslator.translate`, which may raise, return `None`,
or return a string) is modelled by a function into `TransOutcome`.
The rate limiter only affects timing, never values; calls to it and to
the translation capability are recorded as an explicit event trace so
that "does not invoke the capability / the limiter" is expressible.
-/

namespace TranslateBook

/-- The backtick character (U+0060). -/
def backtick : Char := Char.ofNat 96

/-- Left brace character (U+007B). -/
def lbrace : Char := Char.ofNat 123

/-- Right brace character (U+007D). -/
def rbrace : Char := Char.ofNat 125

/-- ASCII whitespace as recognised by Python `str.strip` and `\s`
(the documents are ASCII-oriented; the Unicode extras are not modelled). -/
def isPySpace (c : Char) : Bool :=
  c = ' ' || c = '\t' || c = '\n' || c = '\r' || c = '\x0b' || c = '\x0c'

/-- Python `line.strip()`: drop whitespace from both ends. -/
def pyStrip (s : List Char) : List Char :=
  ((s.dropWhile isPySpace).reverse.dropWhile isPySpace).reverse

/-- Python `line.rstrip("\n")`: drop trailing newline characters. -/
def rstripNL (s : List Char) : List Char :=
  (s.reverse.dropWhile (fun c => c = '\n')).reverse

/-- Helper for `rfindNL`: scan positions `i+m-1, ..., i+1, i` downward and
return the highest one holding a newline, or `-1`. -/
def rfindNLAux (s : List Char) (i : Nat) : Nat → Int
  | 0 => -1
  | m + 1 =>
    if s[i + m]? = some '\n' then ((i + m : Nat) : Int)
    else rfindNLAux s i m

/-- Python `s.rfind("\n", i, j)`: highest index `k` with `i ≤ k < j` and
`s[k] = '\n'`, or `-1` when there is none. -/
def rfindNL (s : List Char) (i j : Nat) : Int :=
  rfindNLAux s i (j - i)

/-- The cut point chosen by one iteration of `chunk_text`'s loop
(`translate_book.py` lines 66-71): `j = min(len(s), i+size)`; if `j` is
strictly inside `s`, `k = s.rfind("\n", i, j)`, and `k > i + 80`, the cut
moves to `k + 1`. -/
def chunkCut (s : List Char) (size i : Nat) : Nat :=
  let j := min s.length (i + size)
  if j < s.length then
    let k := rfindNL s i j
    if k > (i : Int) + 80 then k.toNat + 1 else j
  else j

/-- The `while i < len(s)` loop of `chunk_text`, with explicit fuel.
Each iteration with `size > 0` advances `i`, so fuel `s.length` is enough
(the Python loop does not terminate for `size = 0`; with fuel the
embedding is total). -/
def chunkTextGo (s : List Char) (size : Nat) : Nat → Nat → List (List Char)
  | _, 0 => []
  | i, fuel + 1 =>
    if i < s.length then
      let j := chunkCut s size i
      ((s.drop i).take (j - i)) :: chunkTextGo s size j fuel
    else []

/-- `chunk_text(s, size)` from `translate_book.py` lines 63-74. -/
def chunk_text (s : List Char) (size : Nat) : List (List Char) :=
  chunkTextGo s size 0 s.length

/-- One character of the inert-chunk character class
`[\s\d#>*\-`~:;,.!\[\](){}+=_/\\|]` (ASCII reading of `\s` and `\d`). -/
def inertClassChar (c : Char) : Bool :=
  isPySpace c || c.isDigit ||
  ([' ', '#', '>', '*', '-', backtick, '~', ':', ';', ',', '.', '!',
    '[', ']', '(', ')', lbrace, rbrace, '+', '=', '_', '/', '\\', '|'] : List Char).contains c

/-- The skip condition of `translate_chunk` (line 83):
`not chunk.strip() or re.fullmatch(r"[\s\d#>*\-`~:;,.!\[\](){}+=_/\\|]+", chunk)`. -/
def isInert (chunk : List Char) : Bool :=
  (pyStrip chunk).isEmpty || (!chunk.isEmpty && chunk.all inertClassChar)

/-- Outcome of one call to the opaque translation capability: the call can
raise an exception, return `None`, or return a string. -/
inductive TransOutcome where
  | raised : TransOutcome
  | returned : Option (List Char) → TransOutcome
deriving DecidableEq

/-- Observable side effects of `translate_chunk`: waiting on the shared
rate limiter, and invoking the translation capability on a text. -/
inductive Event where
  | waited : Event
  | called : List Char → Event
deriving DecidableEq

/-- `translate_chunk(idx, chunk, translator, limiter)` (lines 77-91),
together with its event trace. Inert chunks return immediately; otherwise
the worker waits on the limiter and calls the capability once, mapping an
exception or a falsy result (`None` or `""`, via `... or chunk`) back to
the original chunk. The `try/except Exception` means no exception escapes,
which the embedding reflects by being a total function. -/
def translate_chunk_ev (idx : Nat) (chunk : List Char)
    (tr : List Char → TransOutcome) : (Nat × List Char) × List Event :=
  if isInert chunk then ((idx, chunk), [])
  else
    match tr chunk with
    | TransOutcome.raised => ((idx, chunk), [Event.waited, Event.called chunk])
    | TransOutcome.returned none => ((idx, chunk), [Event.waited, Event.called chunk])
    | TransOutcome.returned (some r) =>
        ((idx, if r = [] then chunk else r), [Event.waited, Event.called chunk])

/-- The value returned by `translate_chunk`. -/
def translate_chunk (idx : Nat) (chunk : List Char)
    (tr : List Char → TransOutcome) : Nat × List Char :=
  (translate_chunk_ev idx chunk tr).1

/-- `translate_segment` (lines 94-114) with its canonical (sequential,
index-order) semantics: one chunk short-circuits; otherwise every chunk
`idx` is translated and the results are joined in index order. -/
def translate_segment (segment : List Char) (tr : List Char → TransOutcome)
    (size : Nat) : List Char :=
  let chunks := chunk_text segment size
  if chunks.length = 1 then (translate_chunk 0 (chunks.headD []) tr).2
  else ((chunks.enum.map (fun p => (translate_chunk p.1 p.2 tr).2)).flatten)

/-- `out = [""] * k` followed by `out[idx] = txt` for each completed
result, as in lines 105-113: indexed placement into a pre-sized array. -/
def gatherByIndex (k : Nat) (results : List (Nat × List Char)) : List (List Char) :=
  results.foldl (fun acc p => acc.set p.1 p.2) (List.replicate k [])

/-- `translate_segment` with an explicit completion order: `order` lists
the chunk indices in the order their futures complete; each result is
placed at its original index (lines 111-113) and the array is joined. -/
def translate_segment_completion (segment : List Char)
    (tr : List Char → TransOutcome) (size : Nat) (order : List Nat) : List Char :=
  let chunks := chunk_text segment size
  if chunks.length = 1 then (translate_chunk 0 (chunks.headD []) tr).2
  else (gatherByIndex chunks.length
    (order.map (fun i => translate_chunk i (chunks.getD i []) tr))).flatten

/-- Index of the first occurrence of `c`, as found by the regex tails
`[^`]*` ` and `[^$]*$`: the closing delimiter of a span opened by `c`. -/
def findClose (c : Char) : List Char → Option Nat
  | [] => none
  | x :: xs => if x = c then some 0 else (findClose c xs).map (fun m => m + 1)

/-- Scanner realising `PROTECTED_RE.split(line)` for the pattern
``(`[^`]*`|\$[^$]*\$)`` (line 18): a match starts at a backtick or dollar
that has a closing partner later (the alternatives start with distinct
characters, so at most one can start at a position, and leftmost wins);
`re.split` with a capturing group interleaves the text between matches
(possibly empty) with the matches themselves. Fuel `rest.length + 1` is
enough since every step consumes at least one character. -/
def protSplitGo : List Char → List Char → Nat → List (List Char)
  | acc, rest, 0 => [acc.reverse ++ rest]
  | acc, [], _ => [acc.reverse]
  | acc, c :: rest, fuel + 1 =>
    if c = backtick ∨ c = '$' then
      match findClose c rest with
      | some m =>
          acc.reverse :: (c :: (rest.take m ++ [c])) ::
            protSplitGo [] (rest.drop (m + 1)) fuel
      | none => protSplitGo (c :: acc) rest fuel
    else protSplitGo (c :: acc) rest fuel

/-- `PROTECTED_RE.split(line)`. -/
def protSplit (line : List Char) : List (List Char) :=
  protSplitGo [] line (line.length + 1)

/-- The body of `translate_line`'s loop over parts (lines 126-134):
empty parts are skipped; a part that starts and ends with a backtick, or
starts and ends with a dollar, is kept verbatim; any other part goes
through `translate_segment`. -/
def lineF (tr : List Char → TransOutcome) (size : Nat)
    (part : List Char) : Option (List Char) :=
  if part.isEmpty then none
  else if (part.headD ' ' = backtick ∧ part.getLast? = some backtick) ∨
          (part.headD ' ' = '$' ∧ part.getLast? = some '$') then some part
  else some (translate_segment part tr size)

/-- `translate_line(line, ...)` (lines 117-135). -/
def translate_line (line : List Char) (tr : List Char → TransOutcome)
    (size : Nat) : List Char :=
  ((protSplit line).filterMap (lineF tr size)).flatten

/-- One iteration of the `for line in lines` scan of `translate_file`
(lines 160-177), mapping the fence state `(in_code, in_math)` and a line
to the next state and the emitted output line. -/
def fileStep (tr : List Char → TransOutcome) (size : Nat)
    (st : Bool × Bool) (line : List Char) : (Bool × Bool) × List Char :=
  let stripped := pyStrip line
  if stripped.take 3 = [backtick, backtick, backtick] then ((!st.1, st.2), line)
  else if stripped = ['$', '$'] then ((st.1, !st.2), line)
  else if st.1 || st.2 then (st, line)
  else
    let core := translate_line (rstripNL line) tr size
    (st, if line.getLast? = some '\n' then core ++ ['\n'] else core)

/-- The line scan of `translate_file` over a whole document, starting
with `in_code = in_math = False` and collecting output lines in order. -/
def translate_file (lines : List (List Char)) (tr : List Char → TransOutcome)
    (size : Nat) : List (List Char) :=
  (lines.foldl (fun acc line =>
      let r := fileStep tr size acc.1 line
      (r.1, acc.2 ++ [r.2])) ((false, false), ([] : List (List Char)))).2

/-- A translation capability that raises on every call. -/
def trRaise : List Char → TransOutcome := fun _ => TransOutcome.raised

/-- A translation capability that returns its input unchanged. -/
def trId : List Char → TransOutcome := fun c => TransOutcome.returned (some c)

/-- A translation capability that returns the constant text `"X"`. -/
def trX : List Char → TransOutcome := fun _ => TransOutcome.returned (some ['X'])

/-- A translation capability that returns the empty string. -/
def trEmpty : List Char → TransOutcome := fun _ => TransOutcome.returned (some [])

/-! ### Helper lemmas about `rfindNL` and `chunk_text` -/

lemma rfindNLAux_spec (s : List Char) (i : Nat) : ∀ m : Nat,
    (rfindNLAux s i m = -1 ∧ ∀ m', m' < m → s[i + m']? ≠ some '\n') ∨
    (∃ m', m' < m ∧ rfindNLAux s i m = ((i + m' : Nat) : Int) ∧
      s[i + m']? = some '\n' ∧
      ∀ m'', m' < m'' → m'' < m → s[i + m'']? ≠ some '\n') := by
  intro m
  induction m with
  | zero => exact Or.inl ⟨rfl, fun m' h => absurd h (Nat.not_lt_zero m')⟩
  | succ m ih =>
    by_cases hnl : s[i + m]? = some '\n'
    · refine Or.inr ⟨m, Nat.lt_succ_self m, ?_, hnl, ?_⟩
      · simp [rfindNLAux, hnl]
      · intro m'' h1 h2
        omega
    · have hstep : rfindNLAux s i (m + 1) = rfindNLAux s i m := by
        simp [rfindNLAux, hnl]
      rcases ih with ⟨heq, hnone⟩ | ⟨m', hm', heq, hninl, hgap⟩
      · refine Or.inl ⟨hstep.trans heq, ?_⟩
        intro m' h
        rcases Nat.lt_succ_iff_lt_or_eq.mp h with h | h
        · exact hnone m' h
        · subst h; exact hnl
      · refine Or.inr ⟨m', Nat.lt_succ_of_lt hm', hstep.trans heq, hninl, ?_⟩
        intro m'' h1 h2
        rcases Nat.lt_succ_iff_lt_or_eq.mp h2 with h | h
        · exact hgap m'' h1 h
        · subst h; exact hnl

lemma rfindNL_nonneg (s : List Char) (i j : Nat) (h : 0 ≤ rfindNL s i j) :
    i ≤ (rfindNL s i j).toNat ∧ (rfindNL s i j).toNat < j ∧
    s[(rfindNL s i j).toNat]? = some '\n' := by
  rcases rfindNLAux_spec s i (j - i) with ⟨heq, _⟩ | ⟨m', hm', heq, hnl, _⟩
  · rw [rfindNL] at h
    rw [heq] at h
    omega
  · rw [rfindNL, heq]
    have hj : i + m' < j := by omega
    refine ⟨by omega, by omega, ?_⟩
    have ht : (((i + m' : Nat) : Int)).toNat = i + m' := by omega
    rw [ht]
    exact hnl

lemma rfindNL_gap (s : List Char) (i j : Nat) (hij : i ≤ j)
    (h : 0 ≤ rfindNL s i j) :
    ∀ m, (rfindNL s i j).toNat < m → m < j → s[m]? ≠ some '\n' := by
  rcases rfindNLAux_spec s i (j - i) with ⟨heq, _⟩ | ⟨m', hm', heq, hnl, hgap⟩
  · rw [rfindNL] at h; rw [heq] at h; omega
  · rw [rfindNL, heq]
    intro m h1 h2
    have hm : i + m' < m := by omega
    have hi : i ≤ m := by omega
    have := hgap (m - i) (by omega) (by omega)
    simpa [Nat.add_sub_cancel' hi] using this

lemma rfindNL_neg (s : List Char) (i j : Nat) (h : rfindNL s i j < 0) :
    ∀ m, i ≤ m → m < j → s[m]? ≠ some '\n' := by
  rcases rfindNLAux_spec s i (j - i) with ⟨heq, hnone⟩ | ⟨m', hm', heq, hnl, _⟩
  · intro m h1 h2
    have := hnone (m - i) (by omega)
    simpa [Nat.add_sub_cancel' h1] using this
  · rw [rfindNL, heq] at h
    omega

lemma chunkCut_bounds (s : List Char) (size i : Nat)
    (hi : i < s.length) (hs : 0 < size) :
    i < chunkCut s size i ∧ chunkCut s size i ≤ s.length := by
  unfold chunkCut
  set j := min s.length (i + size) with hj
  have hjle : j ≤ s.length := Nat.min_le_left _ _
  have hjgt : i < j := by omega
  by_cases hlt : j < s.length
  · simp only [hlt, if_true]
    set k := rfindNL s i j with hk
    by_cases hkgt : k > (i : Int) + 80
    · simp only [hkgt, if_pos]
      have hk0 : 0 ≤ k := by omega
      obtain ⟨h1, h2, _⟩ := rfindNL_nonneg s i j hk0
      have : (i : Int) + 80 < k := hkgt
      constructor
      · omega
      · omega
    · simp only [hkgt, if_neg, if_false]
      exact ⟨hjgt, hjle⟩
  · simp only [hlt, if_false]
    exact ⟨hjgt, hjle⟩

lemma chunkCut_of_le (s : List Char) (size i : Nat)
    (h : s.length ≤ i + size) : chunkCut s size i = s.length := by
  unfold chunkCut
  have : min s.length (i + size) = s.length := Nat.min_eq_left h
  simp [this]

lemma chunkTextGo_ge (s : List Char) (size : Nat) :
    ∀ fuel i, s.length ≤ i → chunkTextGo s size i fuel = [] := by
  intro fuel
  cases fuel with
  | zero => intro i _; rfl
  | succ fuel =>
    intro i h
    unfold chunkTextGo
    simp [Nat.not_lt.mpr h]

lemma chunkTextGo_flatten (s : List Char) (size : Nat) (hs : 0 < size) :
    ∀ fuel i, s.length - i ≤ fuel →
      (chunkTextGo s size i fuel).flatten = s.drop i := by
  intro fuel
  induction fuel with
  | zero =>
    intro i h
    have : s.length ≤ i := by omega
    simp [chunkTextGo, List.drop_eq_nil_of_le this]
  | succ fuel ih =>
    intro i h
    by_cases hi : i < s.length
    · obtain ⟨h1, h2⟩ := chunkCut_bounds s size i hi hs
      unfold chunkTextGo
      simp only [hi, if_true, List.flatten_cons]
      rw [ih (chunkCut s size i) (by omega)]
      have : s.drop (chunkCut s size i) = (s.drop i).drop (chunkCut s size i - i) := by
        rw [List.drop_drop]
        congr 1
        omega
      rw [this, List.take_append_drop]
    · unfold chunkTextGo
      simp only [hi, if_false]
      simp [List.drop_eq_nil_of_le (Nat.le_of_not_lt hi)]

lemma chunk_text_flatten (s : List Char) (size : Nat) (hs : 0 < size) :
    (chunk_text s size).flatten = s := by
  have := chunkTextGo_flatten s size hs s.length 0 (by omega)
  simpa [chunk_text] using this

lemma chunk_text_nil (size : Nat) : chunk_text ([] : List Char) size = [] := rfl

lemma chunk_text_single (s : List Char) (size : Nat)
    (h0 : s ≠ []) (h : s.length < size) : chunk_text s size = [s] := by
  unfold chunk_text
  have hlen : 0 < s.length := List.length_pos.mpr h0
  have hcut : chunkCut s size 0 = s.length := chunkCut_of_le s size 0 (by omega)
  obtain ⟨m, hm⟩ : ∃ m, s.length = m + 1 := ⟨s.length - 1, by omega⟩
  conv_lhs => rw [hm]
  unfold chunkTextGo
  simp only [hlen, if_pos, hcut]
  rw [chunkTextGo_ge s size m s.length (by omega)]
  simp

/-! ### Helper lemmas about `translate_chunk` and `translate_segment` -/

lemma translate_chunk_fst (idx : Nat) (c : List Char)
    (tr : List Char → TransOutcome) : (translate_chunk idx c tr).1 = idx := by
  unfold translate_chunk translate_chunk_ev
  by_cases h : isInert c
  · simp [h]
  · simp only [h, if_neg, Bool.false_eq_true, not_false_iff, if_false]
    cases htr : tr c with
    | raised => rfl
    | returned r => cases r <;> rfl

lemma translate_chunk_of_raised (idx : Nat) (c : List Char)
    (tr : List Char → TransOutcome) (h : tr c = TransOutcome.raised) :
    translate_chunk idx c tr = (idx, c) := by
  unfold translate_chunk translate_chunk_ev
  by_cases hin : isInert c
  · simp [hin]
  · simp [hin, h]

lemma translate_chunk_of_id (idx : Nat) (c : List Char)
    (tr : List Char → TransOutcome) (h : tr c = TransOutcome.returned (some c)) :
    translate_chunk idx c tr = (idx, c) := by
  unfold translate_chunk translate_chunk_ev
  by_cases hin : isInert c
  · simp [hin]
  · simp only [hin, Bool.false_eq_true, not_false_iff, if_false, h]
    by_cases hc : c = [] <;> simp [hc]

lemma translate_segment_of_pointwise (tr : List Char → TransOutcome)
    (hpt : ∀ i c, translate_chunk i c tr = (i, c)) (size : Nat) (hs : 0 < size)
    (seg : List Char) : translate_segment seg tr size = seg := by
  unfold translate_segment
  have hflat := chunk_text_flatten seg size hs
  by_cases h1 : (chunk_text seg size).length = 1
  · obtain ⟨c, hc⟩ := List.length_eq_one.mp h1
    rw [hc] at hflat ⊢
    simp only [if_pos, List.headD_cons, hpt]
    simpa using hflat
  · simp only [h1, if_false]
    have : (chunk_text seg size).enum.map
        (fun p => (translate_chunk p.1 p.2 tr).2) =
        (chunk_text seg size).enum.map Prod.snd := by
      apply List.map_congr_left
      intro p _
      rw [hpt p.1 p.2]
    rw [this, List.enum_map_snd]
    exact hflat

/-! ### Helper lemmas about indexed placement (`gatherByIndex`) -/

lemma scatter_length (l : List (Nat × List Char)) (init : List (List Char)) :
    (l.foldl (fun acc p => acc.set p.1 p.2) init).length = init.length := by
  induction l generalizing init with
  | nil => rfl
  | cons p l ih => simp [List.foldl_cons, ih]

lemma scatter_get_not_mem (l : List (Nat × List Char)) (init : List (List Char))
    (m : Nat) (hm : m < init.length) (h : m ∉ l.map Prod.fst) :
    (l.foldl (fun acc p => acc.set p.1 p.2) init)[m]? = init[m]? := by
  induction l generalizing init with
  | nil => rfl
  | cons p l ih =>
    simp only [List.map_cons, List.mem_cons] at h
    push_neg at h
    rw [List.foldl_cons, ih (init.set p.1 p.2) (by simpa using hm) h.2]
    rw [List.getElem?_set_ne (fun he => h.1 he.symm)]

lemma scatter_get_mem (g : Nat → List Char) (order : List Nat)
    (init : List (List Char)) (m : Nat) (hm : m < init.length) (h : m ∈ order) :
    ((order.map (fun i => (i, g i))).foldl
      (fun acc p => acc.set p.1 p.2) init)[m]? = some (g m) := by
  induction order generalizing init with
  | nil => cases h
  | cons i order ih =>
    simp only [List.map_cons, List.foldl_cons]
    by_cases hmem : m ∈ order
    · exact ih (init.set i (g i)) (by simpa using hm) hmem
    · have him : m = i := by
        rcases List.mem_cons.mp h with h | h
        · exact h
        · exact absurd h hmem
      subst him
      rw [scatter_get_not_mem _ _ m (by simpa using hm) (by simpa using hmem)]
      rw [List.getElem?_set_self (by simpa using hm)]

/-! ### Helper lemmas about `protSplit` and `translate_line` -/

lemma findClose_spec (c : Char) : ∀ (xs : List Char) (m : Nat),
    findClose c xs = some m →
    m < xs.length ∧ xs.take m ++ c :: xs.drop (m + 1) = xs := by
  intro xs
  induction xs with
  | nil => intro m h; cases h
  | cons x xs ih =>
    intro m h
    unfold findClose at h
    by_cases hx : x = c
    · rw [if_pos hx] at h
      cases h
      subst hx
      simp
    · rw [if_neg hx, Option.map_eq_some'] at h
      obtain ⟨m0, hm0, hm⟩ := h
      obtain ⟨h1, h2⟩ := ih m0 hm0
      subst hm
      refine ⟨by simpa using h1, ?_⟩
      have hx2 : x :: (xs.take m0 ++ c :: xs.drop (m0 + 1)) = x :: xs := by rw [h2]
      simpa using hx2

lemma findClose_concat (c : Char) (xs : List Char) (h : c ∉ xs) :
    findClose c (xs ++ [c]) = some xs.length := by
  induction xs with
  | nil => simp [findClose]
  | cons x xs ih =>
    simp only [List.mem_cons, not_or] at h
    have hx : ¬(x = c) := fun he => h.1 he.symm
    rw [List.cons_append]
    unfold findClose
    rw [if_neg hx, ih h.2, Option.map_some']
    simp

lemma protSplitGo_flatten : ∀ (fuel : Nat) (acc rest : List Char),
    rest.length < fuel →
    (protSplitGo acc rest fuel).flatten = acc.reverse ++ rest := by
  intro fuel
  induction fuel with
  | zero => intro acc rest h; omega
  | succ fuel ih =>
    intro acc rest h
    match rest with
    | [] => simp [protSplitGo]
    | c :: rest =>
      unfold protSplitGo
      by_cases hc : c = backtick ∨ c = '$'
      · simp only [hc, if_pos]
        cases hfc : findClose c rest with
        | none =>
          rw [ih (c :: acc) rest (by simpa using Nat.lt_of_succ_lt_succ h)]
          simp
        | some m =>
          obtain ⟨hlt, hdec⟩ := findClose_spec c rest m hfc
          have hdrop : (rest.drop (m + 1)).length < fuel := by
            have : (rest.drop (m + 1)).length = rest.length - (m + 1) := by simp
            simp only [List.length_cons] at h
            omega
          simp only [List.flatten_cons]
          rw [ih [] (rest.drop (m + 1)) hdrop]
          simp only [List.reverse_nil, List.nil_append]
          congr 1
          rw [List.cons_append, List.append_assoc]
          simp only [List.singleton_append]
          rw [hdec]
      · simp only [hc, if_neg, if_false]
        rw [ih (c :: acc) rest (by simpa using Nat.lt_of_succ_lt_succ h)]
        simp

lemma protSplit_flatten (line : List Char) : (protSplit line).flatten = line := by
  have := protSplitGo_flatten (line.length + 1) [] line (Nat.lt_succ_self _)
  simpa [protSplit] using this

lemma protSplitGo_no_trigger : ∀ (fuel : Nat) (acc rest : List Char),
    rest.length < fuel → (∀ ch ∈ rest, ch ≠ backtick ∧ ch ≠ '$') →
    protSplitGo acc rest fuel = [acc.reverse ++ rest] := by
  intro fuel
  induction fuel with
  | zero => intro acc rest h _; omega
  | succ fuel ih =>
    intro acc rest h hch
    match rest with
    | [] => simp [protSplitGo]
    | c :: rest =>
      obtain ⟨h1, h2⟩ := hch c (List.mem_cons_self c rest)
      unfold protSplitGo
      have hc : ¬(c = backtick ∨ c = '$') := by tauto
      simp only [hc, if_neg, if_false]
      rw [ih (c :: acc) rest (by simpa using Nat.lt_of_succ_lt_succ h)
        (fun ch hm => hch ch (List.mem_cons_of_mem c hm))]
      simp

lemma protSplit_no_trigger (line : List Char)
    (h : ∀ ch ∈ line, ch ≠ backtick ∧ ch ≠ '$') : protSplit line = [line] := by
  have := protSplitGo_no_trigger (line.length + 1) [] line (Nat.lt_succ_self _) h
  simpa [protSplit] using this

lemma protSplit_code_span (inner : List Char) (h : backtick ∉ inner) :
    protSplit (backtick :: (inner ++ [backtick])) =
      [[], backtick :: (inner ++ [backtick]), []] := by
  unfold protSplit
  simp only [List.length_cons, List.length_append, List.length_singleton]
  unfold protSplitGo
  simp only [if_pos (Or.inl rfl), findClose_concat backtick inner h]
  rw [List.take_left, List.drop_eq_nil_of_le (by simp)]
  have : protSplitGo [] [] (inner.length + 1 + 1 - 1) = [[]] := by
    unfold protSplitGo
    simp
  simp only [List.reverse_nil]
  norm_num
  unfold protSplitGo
  simp

lemma lineF_flatten (tr : List Char → TransOutcome) (size : Nat)
    (hseg : ∀ p, translate_segment p tr size = p) :
    ∀ parts : List (List Char),
      (parts.filterMap (lineF tr size)).flatten = parts.flatten := by
  intro parts
  induction parts with
  | nil => rfl
  | cons p parts ih =>
    rw [List.filterMap_cons]
    by_cases hp : p.isEmpty
    · have : lineF tr size p = none := by simp [lineF, hp]
      rw [this]
      rw [List.isEmpty_iff] at hp
      simp [hp, ih]
    · by_cases hprot : (p.headD ' ' = backtick ∧ p.getLast? = some backtick) ∨
          (p.headD ' ' = '$' ∧ p.getLast? = some '$')
      · have : lineF tr size p = some p := by
          unfold lineF
          rw [if_neg hp, if_pos hprot]
        rw [this]
        simp [ih]
      · have : lineF tr size p = some (translate_segment p tr size) := by
          unfold lineF
          rw [if_neg hp, if_neg hprot]
        rw [this, hseg p]
        simp [ih]

lemma translate_chunk_eta (i : Nat) (c : List Char)
    (tr : List Char → TransOutcome) :
    translate_chunk i c tr = (i, (translate_chunk i c tr).2) := by
  have h1 := translate_chunk_fst i c tr
  cases hp : translate_chunk i c tr with
  | mk a b =>
    rw [hp] at h1
    simp only [Prod.fst] at h1
    subst h1
    rfl

/-! ### Claim theorems -/

/-- Claim C1 (confirmed). Segmentation completeness: for every text `s` and
chunk size `n > 0`, concatenating the chunks of `chunk_text s n` in order
reproduces `s` exactly; the empty text yields zero chunks, and a nonempty
text shorter than `n` yields exactly one chunk. -/
theorem chunk_text_complete (s : List Char) (n : Nat) (hn : 0 < n) :
    (chunk_text s n).flatten = s ∧ chunk_text ([] : List Char) n = [] ∧
      (s ≠ [] → s.length < n → chunk_text s n = [s]) :=
  ⟨chunk_text_flatten s n hn, chunk_text_nil n,
   fun h0 h1 => chunk_text_single s n h0 h1⟩

/-- Witness for C1 at `s = "a"`, `n = 2`. -/
theorem chunk_text_complete_witness :
    (chunk_text ['a'] 2).flatten = ['a'] ∧ chunk_text ([] : List Char) 2 = [] ∧
      chunk_text ['a'] 2 = [['a']] :=
  ⟨(chunk_text_complete ['a'] 2 (by decide)).1,
   (chunk_text_complete ['a'] 2 (by decide)).2.1,
   (chunk_text_complete ['a'] 2 (by decide)).2.2 (by decide) (by decide)⟩

/-- Claim C2 (confirmed). Fallback safety: if the translation capability
raises on every call, `translate_chunk` returns the original chunk paired
with its index, and a whole segment comes back unchanged; the embedding is
a total function, reflecting that `except Exception` lets no exception
escape the chunk pipeline. -/
theorem translate_chunk_fallback (idx : Nat) (chunk : List Char)
    (tr : List Char → TransOutcome) (n : Nat)
    (hfail : ∀ c, tr c = TransOutcome.raised) (hn : 0 < n) :
    translate_chunk idx chunk tr = (idx, chunk) ∧
      ∀ seg, translate_segment seg tr n = seg := by
  constructor
  · exact translate_chunk_of_raised idx chunk tr (hfail chunk)
  · intro seg
    exact translate_segment_of_pointwise tr
      (fun i c => translate_chunk_of_raised i c tr (hfail c)) n hn seg

/-- Witness for C2 with the always-raising capability. -/
theorem translate_chunk_fallback_witness :
    translate_chunk 0 ['a'] trRaise = (0, ['a']) ∧
      translate_segment ['h', 'i'] trRaise 1 = ['h', 'i'] :=
  ⟨(translate_chunk_fallback 0 ['a'] trRaise 1 (fun _ => rfl) (by decide)).1,
   (translate_chunk_fallback 0 ['a'] trRaise 1 (fun _ => rfl) (by decide)).2
     ['h', 'i']⟩

/-- Claim C3 (confirmed). Order preservation: collecting the chunk results
in any completion order `order` (a permutation of the chunk indices) into
the pre-sized output array and joining equals sequential processing in
index order. -/
theorem translate_segment_order_preserved (seg : List Char)
    (tr : List Char → TransOutcome) (size : Nat) (order : List Nat)
    (h : order.Perm (List.range (chunk_text seg size).length)) :
    translate_segment_completion seg tr size order =
      translate_segment seg tr size := by
  simp only [translate_segment_completion, translate_segment]
  by_cases h1 : (chunk_text seg size).length = 1
  · rw [if_pos h1, if_pos h1]
  · rw [if_neg h1, if_neg h1]
    congr 1
    have hmap : order.map
        (fun i => translate_chunk i ((chunk_text seg size).getD i []) tr) =
        order.map (fun i =>
          (i, (translate_chunk i ((chunk_text seg size).getD i []) tr).2)) :=
      List.map_congr_left (fun i _ => translate_chunk_eta i _ tr)
    unfold gatherByIndex
    rw [hmap]
    apply List.ext_getElem
    · rw [scatter_length]
      simp
    · intro m hmA hmB
      have hm : m < (chunk_text seg size).length := by simpa using hmB
      have hmem : m ∈ order := h.mem_iff.mpr (List.mem_range.mpr hm)
      have hA := scatter_get_mem
        (fun k => (translate_chunk k ((chunk_text seg size).getD k []) tr).2)
        order (List.replicate (chunk_text seg size).length []) m
        (by simpa using hm) hmem
      rw [List.getElem?_eq_getElem hmA] at hA
      have hAv := Option.some_injective _ hA
      rw [hAv, List.getElem_map, List.getElem_enum]
      simp only []
      rw [List.getD_eq_getElem (chunk_text seg size) ([] : List Char) hm]

/-- Witness for C3: two chunks completed in reversed order. -/
theorem translate_segment_order_preserved_witness :
    translate_segment_completion ['a', 'b', 'c', 'd'] trId 2 [1, 0] =
      translate_segment ['a', 'b', 'c', 'd'] trId 2 :=
  translate_segment_order_preserved ['a', 'b', 'c', 'd'] trId 2 [1, 0]
    (by decide)

/-- Claim C4 (confirmed). Round-trip identity of span protection: if the
translation capability acts as the identity on every segment it is handed,
then `translate_line` returns the line unchanged — splitting into
protected and unprotected parts and rejoining reproduces the line. -/
theorem translate_line_roundtrip (line : List Char)
    (tr : List Char → TransOutcome) (n : Nat) (hn : 0 < n)
    (htr : ∀ c, tr c = TransOutcome.returned (some c)) :
    translate_line line tr n = line := by
  unfold translate_line
  rw [lineF_flatten tr n (translate_segment_of_pointwise tr
    (fun i c => translate_chunk_of_id i c tr (htr c)) n hn)]
  exact protSplit_flatten line

/-- Witness for C4 with the identity capability. -/
theorem translate_line_roundtrip_witness :
    translate_line ['h', 'i'] trId 5 = ['h', 'i'] :=
  translate_line_roundtrip ['h', 'i'] trId 5 (by decide) (fun _ => rfl)

/-- Claim C5 counterexample. `PROTECTED_RE` has no link alternative: on the
line `"[a](b)"` the whole line, link included, is handed to the
translation capability, so with a capability returning `"X"` the link is
not present byte-identical in the output. -/
theorem link_not_protected_cex :
    translate_line ['[', 'a', ']', '(', 'b', ')'] trX 100 = ['X'] ∧
      translate_line ['[', 'a', ']', '(', 'b', ')'] trX 100 ≠
        ['[', 'a', ']', '(', 'b', ')'] := by
  decide

/-- Claim C5 (corrected). Only inline code spans and inline math spans are
protected: a line with no backtick and no dollar — links included — is
handed whole to the segment pipeline, while a backtick-delimited span is
returned byte-identical. -/
theorem translate_line_spans (line inner : List Char)
    (tr : List Char → TransOutcome) (n : Nat)
    (hline : ∀ c ∈ line, c ≠ backtick ∧ c ≠ '$') (hinner : backtick ∉ inner) :
    translate_line line tr n = translate_segment line tr n ∧
      translate_line (backtick :: (inner ++ [backtick])) tr n =
        backtick :: (inner ++ [backtick]) := by
  constructor
  · unfold translate_line
    rw [protSplit_no_trigger line hline]
    by_cases hl : line = []
    · subst hl
      rfl
    · have hemp : ¬(line.isEmpty = true) := by simp [hl]
      have hc := hline (line.headD ' ') ?hmem
      case hmem =>
        obtain ⟨c, rest, rfl⟩ := List.exists_cons_of_ne_nil hl
        exact List.mem_cons_self c rest
      have hprot : ¬((line.headD ' ' = backtick ∧
            line.getLast? = some backtick) ∨
          (line.headD ' ' = '$' ∧ line.getLast? = some '$')) := by
        rintro (⟨ha, _⟩ | ⟨ha, _⟩)
        · exact hc.1 ha
        · exact hc.2 ha
      have : lineF tr n line = some (translate_segment line tr n) := by
        unfold lineF
        rw [if_neg hemp, if_neg hprot]
      simp [this]
  · unfold translate_line
    rw [protSplit_code_span inner hinner]
    have hgl : (backtick :: (inner ++ [backtick])).getLast? = some backtick := by
      rw [← List.cons_append]
      exact List.getLast?_concat _
    have hspan : lineF tr n (backtick :: (inner ++ [backtick])) =
        some (backtick :: (inner ++ [backtick])) := by
      unfold lineF
      rw [if_neg (by simp), if_pos (Or.inl ⟨rfl, hgl⟩)]
    have hnil : lineF tr n [] = none := rfl
    simp [hspan, hnil]

/-- Witness for the corrected C5: a link line is translated as prose, a
code span passes through. -/
theorem translate_line_spans_witness :
    translate_line ['[', 'a', ']', '(', 'b', ')'] trX 100 =
        translate_segment ['[', 'a', ']', '(', 'b', ')'] trX 100 ∧
      translate_line (backtick :: (['c'] ++ [backtick])) trX 100 =
        backtick :: (['c'] ++ [backtick]) :=
  translate_line_spans ['[', 'a', ']', '(', 'b', ')'] ['c'] trX 100
    (by decide) (by decide)

/-- Claim C6 counterexample. The worker makes no retry: on the non-inert
chunk `"a"` with an always-raising capability, the trace shows exactly one
limiter wait and exactly one capability call, after which the original
chunk is returned — there is no second attempt and no backoff sleep. -/
theorem translate_chunk_no_retry_cex :
    (translate_chunk_ev 0 ['a'] trRaise).2 =
        [Event.waited, Event.called ['a']] ∧
      (translate_chunk_ev 0 ['a'] trRaise).2.count (Event.called ['a']) = 1 ∧
      translate_chunk 0 ['a'] trRaise = (0, ['a']) := by
  decide

/-- Claim C6 (corrected). Single attempt: for every non-inert chunk the
worker waits once on the limiter and calls the capability exactly once,
and if that single call raises it immediately falls back to the original
chunk — there is no retry loop, no attempt limit and no backoff. -/
theorem translate_chunk_single_attempt (idx : Nat) (chunk : List Char)
    (tr : List Char → TransOutcome) (h : isInert chunk = false) :
    (translate_chunk_ev idx chunk tr).2 =
        [Event.waited, Event.called chunk] ∧
      (tr chunk = TransOutcome.raised →
        translate_chunk idx chunk tr = (idx, chunk)) := by
  constructor
  · unfold translate_chunk_ev
    simp only [h, Bool.false_eq_true, if_false]
    cases htr : tr chunk with
    | raised => rfl
    | returned r => cases r <;> rfl
  · intro hr
    exact translate_chunk_of_raised idx chunk tr hr

/-- Witness for the corrected C6. -/
theorem translate_chunk_single_attempt_witness :
    (translate_chunk_ev 0 ['b'] trRaise).2 =
        [Event.waited, Event.called ['b']] ∧
      translate_chunk 0 ['b'] trRaise = (0, ['b']) :=
  ⟨(translate_chunk_single_attempt 0 ['b'] trRaise (by decide)).1,
   (translate_chunk_single_attempt 0 ['b'] trRaise (by decide)).2 rfl⟩

/-- Claim C7 (confirmed). Fence passthrough, per scan step: a line whose
stripped form starts with three backticks toggles `in_code` and is emitted
unchanged; otherwise a line whose stripped form is `$$` toggles `in_math`
and is emitted unchanged; any other line met while `in_code` or `in_math`
is emitted byte-identical with the state unchanged — so fenced regions
never reach the translation pipeline. -/
theorem fence_passthrough (tr : List Char → TransOutcome) (n : Nat)
    (st : Bool × Bool) (line : List Char) :
    ((pyStrip line).take 3 = [backtick, backtick, backtick] →
        fileStep tr n st line = ((!st.1, st.2), line)) ∧
    ((pyStrip line).take 3 ≠ [backtick, backtick, backtick] →
      pyStrip line = ['$', '$'] →
        fileStep tr n st line = ((st.1, !st.2), line)) ∧
    ((pyStrip line).take 3 ≠ [backtick, backtick, backtick] →
      pyStrip line ≠ ['$', '$'] → (st.1 || st.2) = true →
        fileStep tr n st line = (st, line)) := by
  refine ⟨?_, ?_, ?_⟩
  · intro h
    simp only [fileStep]
    rw [if_pos h]
  · intro h1 h2
    simp only [fileStep]
    rw [if_neg h1, if_pos h2]
  · intro h1 h2 h3
    simp only [fileStep]
    rw [if_neg h1, if_neg h2, if_pos h3]

/-- Witness for C7: a prose line inside a code fence passes unchanged. -/
theorem fence_passthrough_witness :
    fileStep trRaise 1 (true, false) ['x'] = ((true, false), ['x']) :=
  (fence_passthrough trRaise 1 (true, false) ['x']).2.2
    (by decide) (by decide) (by decide)

/-- Claim C8 (confirmed). Inert-chunk skip: a chunk that is empty,
whitespace-only, or matches the structural-only class (digits and the
code's punctuation/markup glyphs, no alphabetic content) is returned
unchanged with an empty event trace — the capability is not invoked and
the rate limiter is not waited on. -/
theorem translate_chunk_inert_skip (idx : Nat) (chunk : List Char)
    (tr : List Char → TransOutcome) (h : isInert chunk = true) :
    translate_chunk_ev idx chunk tr = ((idx, chunk), []) := by
  unfold translate_chunk_ev
  rw [if_pos h]

/-- Witness for C8 at the spec's example chunk `"1. --- 2024"`. -/
theorem translate_chunk_inert_skip_witness :
    translate_chunk_ev 0
        ['1', '.', ' ', '-', '-', '-', ' ', '2', '0', '2', '4'] trRaise =
      ((0, ['1', '.', ' ', '-', '-', '-', ' ', '2', '0', '2', '4']), []) :=
  translate_chunk_inert_skip 0
    ['1', '.', ' ', '-', '-', '-', ' ', '2', '0', '2', '4'] trRaise (by decide)

/-- Claim C9 (confirmed). Segmenter cut rule: when the candidate cut
`i + n` falls strictly inside `s`, the nearest newline at or after `i` and
before the cut is found by `rfindNL`; if its position exceeds the safety
offset `i + 80` the cut is placed just after it (consuming the break into
the chunk), and otherwise the cut stays at the hard boundary `i + n`. -/
theorem chunk_cut_rule (s : List Char) (n i : Nat) (hn : 0 < n)
    (hin : i + n < s.length) :
    ((rfindNL s i (i + n) > (i : Int) + 80) →
        chunkCut s n i = (rfindNL s i (i + n)).toNat + 1 ∧
        i + 80 < (rfindNL s i (i + n)).toNat ∧
        (rfindNL s i (i + n)).toNat < i + n ∧
        s[(rfindNL s i (i + n)).toNat]? = some '\n' ∧
        (∀ m, (rfindNL s i (i + n)).toNat < m → m < i + n →
          s[m]? ≠ some '\n')) ∧
    (¬(rfindNL s i (i + n) > (i : Int) + 80) → chunkCut s n i = i + n) := by
  have hj : min s.length (i + n) = i + n := Nat.min_eq_right (Nat.le_of_lt hin)
  have hcut : chunkCut s n i =
      (if rfindNL s i (i + n) > (i : Int) + 80
       then (rfindNL s i (i + n)).toNat + 1 else i + n) := by
    simp only [chunkCut]
    rw [hj, if_pos hin]
  constructor
  · intro hk
    have hk0 : 0 ≤ rfindNL s i (i + n) := by omega
    obtain ⟨hb1, hb2, hb3⟩ := rfindNL_nonneg s i (i + n) hk0
    rw [hcut, if_pos hk]
    refine ⟨rfl, by omega, hb2, hb3, ?_⟩
    exact rfindNL_gap s i (i + n) (by omega) hk0
  · intro hk
    rw [hcut, if_neg hk]

/-- Witness for C9: in `"abc"` with `n = 2` there is no newline before the
cut, so the cut stays at the hard boundary. -/
theorem chunk_cut_rule_witness : chunkCut ['a', 'b', 'c'] 2 0 = 0 + 2 :=
  (chunk_cut_rule ['a', 'b', 'c'] 2 0 (by decide) (by decide)).2 (by decide)

/-- Claim C10 (confirmed). Empty-result passthrough: for a non-inert chunk,
if the capability returns without raising but its result is `None` or the
empty string, `translate_chunk` returns the original chunk unchanged (the
`or chunk` fallback) — a falsy result is accepted as passthrough, not
retried. -/
theorem translate_chunk_empty_result (idx : Nat) (chunk : List Char)
    (tr : List Char → TransOutcome) (hni : isInert chunk = false)
    (h : tr chunk = TransOutcome.returned none ∨
      tr chunk = TransOutcome.returned (some [])) :
    translate_chunk idx chunk tr = (idx, chunk) := by
  unfold translate_chunk translate_chunk_ev
  rcases h with h | h <;> simp [hni, h]

/-- Witness for C10 with the empty-string capability. -/
theorem translate_chunk_empty_result_witness :
    translate_chunk 0 ['a'] trEmpty = (0, ['a']) :=
  translate_chunk_empty_result 0 ['a'] trEmpty (by decide) (Or.inr rfl)

end TranslateBook
